import Mathlib

/-!
Verification of the production scheduling and inventory-reservation engine
of the `v2-econ-sim` repository (`src/main.rs`), against its natural-language
specification.

Shallow embedding conventions:
* Rust `u32` fields are modelled as `Nat`.  The subtractions the source
  performs (`self.amount -= n`, `self.reserved -= n`, and the derived
  quantities `capacity - amount`, `amount - reserved`) are modelled with a
  checked subtraction `checkedSub` that signals the debug-mode overflow
  panic as `Panic.arith`, because underflow is observable behaviour of the
  code.  The additions the source performs are guarded by comparisons that
  bound the sum by another `u32` field (`amount + n ≤ capacity`,
  `reserved + n ≤ amount`), so they cannot overflow for representable
  states and are modelled as plain `Nat` addition.
* Rust panics (`panic!` inside the four Inventory guards, arithmetic
  overflow, `Option::unwrap` on `None`) are modelled as `Except.error` of a
  `Panic` value; a call that "returns successfully" is one that returns
  `Except.ok`.
* `HashMap<String, _>` containers that are only read and written by key
  (the inventories of an agent, the strategy catalog, the price beliefs)
  are modelled as functions `String → Option _`; `HashMap::insert` becomes
  a pointwise functional update.  The agents map of the `Market`, which is
  iterated, is modelled as an association list whose order stands for the
  (unspecified) `HashMap` iteration order.
* `Uuid` agent ids are modelled as `Nat` (only equality is used).
-/

/-- The distinct ways the Rust code can panic. -/
inductive Panic where
  | addGuard        -- "Tried to add more than there is room for"
  | removeGuard     -- "Tried to remove more than is available"
  | reserveGuard    -- "Tried to reserve more than is available"
  | unreserveGuard  -- "Tried to unreserve more than is reserved"
  | arith           -- u32 arithmetic overflow panic (debug profile)
  | unwrapNone      -- Option::unwrap called on None
  deriving DecidableEq, Repr

/-- Computations that may panic. -/
abbrev M (α : Type) : Type := Except Panic α

/-- Rust `u32` subtraction `a - b` in the debug profile: panics on underflow. -/
def checkedSub (a b : Nat) : M Nat :=
  if b ≤ a then .ok (a - b) else .error .arith

/-- `Inventory` struct of `src/main.rs` (fields in source order). -/
structure Inventory where
  capacity : Nat
  amount : Nat
  ideal_amount : Nat
  reserved : Nat
  deriving DecidableEq, Repr

/-- `Inventory::free`: `self.capacity - self.amount`. -/
def Inventory.free (inv : Inventory) : M Nat :=
  checkedSub inv.capacity inv.amount

/-- `Inventory::unreserved`: `self.amount - self.reserved`. -/
def Inventory.unreserved (inv : Inventory) : M Nat :=
  checkedSub inv.amount inv.reserved

/-- `Inventory::add`: guard `amount > self.free()`, then `self.amount += amount`. -/
def Inventory.add (inv : Inventory) (n : Nat) : M Inventory :=
  match inv.free with
  | .error e => .error e
  | .ok f =>
    if n > f then .error .addGuard
    else .ok { inv with amount := inv.amount + n }

/-- `Inventory::remove`: guard `amount > self.free()` (the source compares
against `free`, not against the stored amount), then `self.amount -= amount`. -/
def Inventory.remove (inv : Inventory) (n : Nat) : M Inventory :=
  match inv.free with
  | .error e => .error e
  | .ok f =>
    if n > f then .error .removeGuard
    else
      match checkedSub inv.amount n with
      | .error e => .error e
      | .ok a => .ok { inv with amount := a }

/-- `Inventory::reserve`: guard `amount > self.unreserved()`, then
`self.reserved += amount`. -/
def Inventory.reserve (inv : Inventory) (n : Nat) : M Inventory :=
  match inv.unreserved with
  | .error e => .error e
  | .ok u =>
    if n > u then .error .reserveGuard
    else .ok { inv with reserved := inv.reserved + n }

/-- `Inventory::unreserve`: guard `amount > self.unreserved()` (the source
compares against `unreserved()`, not against `reserved`), then
`self.reserved -= amount`. -/
def Inventory.unreserve (inv : Inventory) (n : Nat) : M Inventory :=
  match inv.unreserved with
  | .error e => .error e
  | .ok u =>
    if n > u then .error .unreserveGuard
    else
      match checkedSub inv.reserved n with
      | .error e => .error e
      | .ok r => .ok { inv with reserved := r }

/-- The documented inventory invariant: `reserved ≤ amount ≤ capacity`. -/
def Inventory.invariant (inv : Inventory) : Prop :=
  inv.reserved ≤ inv.amount ∧ inv.amount ≤ inv.capacity

instance (inv : Inventory) : Decidable inv.invariant := by
  unfold Inventory.invariant; infer_instance

-- Success characterizations of the four mutating operations.

theorem checkedSub_ok {a b c : Nat} : checkedSub a b = .ok c ↔ b ≤ a ∧ c = a - b := by
  unfold checkedSub
  split
  · constructor
    · intro h; cases h; exact ⟨by assumption, rfl⟩
    · rintro ⟨-, rfl⟩; rfl
  · constructor
    · intro h; cases h
    · rintro ⟨h, -⟩; omega

theorem Inventory.add_ok {inv inv' : Inventory} {n : Nat} :
    inv.add n = .ok inv' ↔
      inv.amount ≤ inv.capacity ∧ n ≤ inv.capacity - inv.amount ∧
      inv' = { inv with amount := inv.amount + n } := by
  unfold Inventory.add Inventory.free
  rcases h : checkedSub inv.capacity inv.amount with e | f
  · simp only []
    constructor
    · intro hc; cases hc
    · rintro ⟨hle, -, -⟩
      rw [checkedSub, if_pos hle] at h; cases h
  · rw [checkedSub_ok] at h
    obtain ⟨hle, rfl⟩ := h
    simp only []
    split
    · constructor
      · intro hc; cases hc
      · rintro ⟨-, hn, -⟩; omega
    · constructor
      · intro hc; cases hc; exact ⟨hle, by omega, rfl⟩
      · rintro ⟨-, -, rfl⟩; rfl

theorem Inventory.remove_ok {inv inv' : Inventory} {n : Nat} :
    inv.remove n = .ok inv' ↔
      inv.amount ≤ inv.capacity ∧ n ≤ inv.capacity - inv.amount ∧ n ≤ inv.amount ∧
      inv' = { inv with amount := inv.amount - n } := by
  unfold Inventory.remove Inventory.free
  rcases h : checkedSub inv.capacity inv.amount with e | f
  · simp only []
    constructor
    · intro hc; cases hc
    · rintro ⟨hle, -, -, -⟩
      rw [checkedSub, if_pos hle] at h; cases h
  · rw [checkedSub_ok] at h
    obtain ⟨hle, rfl⟩ := h
    simp only []
    split
    · constructor
      · intro hc; cases hc
      · rintro ⟨-, hn, -, -⟩; omega
    · rcases h2 : checkedSub inv.amount n with e | a

      · simp only []
        constructor
        · intro hc; cases hc
        · rintro ⟨-, -, hn, -⟩
          rw [checkedSub, if_pos hn] at h2; cases h2
      · rw [checkedSub_ok] at h2
        obtain ⟨hn, rfl⟩ := h2
        simp only []
        constructor
        · intro hc; cases hc; exact ⟨hle, by omega, hn, rfl⟩
        · rintro ⟨-, -, -, rfl⟩; rfl

theorem Inventory.reserve_ok {inv inv' : Inventory} {n : Nat} :
    inv.reserve n = .ok inv' ↔
      inv.reserved ≤ inv.amount ∧ n ≤ inv.amount - inv.reserved ∧
      inv' = { inv with reserved := inv.reserved + n } := by
  unfold Inventory.reserve Inventory.unreserved
  rcases h : checkedSub inv.amount inv.reserved with e | u
  · simp only []
    constructor
    · intro hc; cases hc
    · rintro ⟨hle, -, -⟩
      rw [checkedSub, if_pos hle] at h; cases h
  · rw [checkedSub_ok] at h
    obtain ⟨hle, rfl⟩ := h
    simp only []
    split
    · constructor
      · intro hc; cases hc
      · rintro ⟨-, hn, -⟩; omega
    · constructor
      · intro hc; cases hc; exact ⟨hle, by omega, rfl⟩
      · rintro ⟨-, -, rfl⟩; rfl

theorem Inventory.unreserve_ok {inv inv' : Inventory} {n : Nat} :
    inv.unreserve n = .ok inv' ↔
      inv.reserved ≤ inv.amount ∧ n ≤ inv.amount - inv.reserved ∧ n ≤ inv.reserved ∧
      inv' = { inv with reserved := inv.reserved - n } := by
  unfold Inventory.unreserve Inventory.unreserved
  rcases h : checkedSub inv.amount inv.reserved with e | u
  · simp only []
    constructor
    · intro hc; cases hc
    · rintro ⟨hle, -, -, -⟩
      rw [checkedSub, if_pos hle] at h; cases h
  · rw [checkedSub_ok] at h
    obtain ⟨hle, rfl⟩ := h
    simp only []
    split
    · constructor
      · intro hc; cases hc
      · rintro ⟨-, hn, -, -⟩; omega
    · rcases h2 : checkedSub inv.reserved n with e | r
      · simp only []
        constructor
        · intro hc; cases hc
        · rintro ⟨-, -, hn, -⟩
          rw [checkedSub, if_pos hn] at h2; cases h2
      · rw [checkedSub_ok] at h2
        obtain ⟨hn, rfl⟩ := h2
        simp only []
        constructor
        · intro hc; cases hc; exact ⟨hle, by omega, hn, rfl⟩
        · rintro ⟨-, -, -, rfl⟩; rfl

/-- C1: the claim as stated is false: with the guard the source implements
(`n ≤ free`), `remove` can return successfully from a state satisfying
`reserved ≤ amount ≤ capacity` and leave `reserved > amount`.  Concretely,
`{capacity 100, amount 10, reserved 10}.remove 5` succeeds and yields
`{capacity 100, amount 5, reserved 10}`. -/
theorem remove_breaks_invariant_cex :
    Inventory.invariant ⟨100, 10, 10, 10⟩ ∧
    Inventory.remove ⟨100, 10, 10, 10⟩ 5 = .ok ⟨100, 5, 10, 10⟩ ∧
    ¬ Inventory.invariant ⟨100, 5, 10, 10⟩ :=
  ⟨by decide, by rfl, by decide⟩

/-- C1 (amended): for every Inventory satisfying `reserved ≤ amount ≤ capacity`,
`add`, `reserve` and `unreserve` leave the invariant intact whenever they
return successfully; `remove n` does so only under the additional hypothesis
`n + reserved ≤ amount` (i.e. `n ≤ unreserved`). -/
theorem inventory_ops_preserve_invariant (inv inv' : Inventory) (n : Nat)
    (hinv : inv.invariant) :
    (inv.add n = .ok inv' → inv'.invariant) ∧
    (inv.reserve n = .ok inv' → inv'.invariant) ∧
    (inv.unreserve n = .ok inv' → inv'.invariant) ∧
    (n + inv.reserved ≤ inv.amount → inv.remove n = .ok inv' → inv'.invariant) := by
  obtain ⟨h1, h2⟩ := hinv
  refine ⟨?_, ?_, ?_, ?_⟩
  · intro h
    rw [Inventory.add_ok] at h
    obtain ⟨-, hn, rfl⟩ := h
    show inv.reserved ≤ inv.amount + n ∧ inv.amount + n ≤ inv.capacity
    omega
  · intro h
    rw [Inventory.reserve_ok] at h
    obtain ⟨-, hn, rfl⟩ := h
    show inv.reserved + n ≤ inv.amount ∧ inv.amount ≤ inv.capacity
    omega
  · intro h
    rw [Inventory.unreserve_ok] at h
    obtain ⟨-, hn, hr, rfl⟩ := h
    show inv.reserved - n ≤ inv.amount ∧ inv.amount ≤ inv.capacity
    omega
  · intro hx h
    rw [Inventory.remove_ok] at h
    obtain ⟨-, hf, hn, rfl⟩ := h
    show inv.reserved ≤ inv.amount - n ∧ inv.amount - n ≤ inv.capacity
    omega

/-- Witness for `inventory_ops_preserve_invariant` at
`{capacity 100, amount 10, reserved 2}`, `n = 3` (the `add` case). -/
theorem inventory_ops_preserve_invariant_witness :
    Inventory.invariant ⟨100, 10, 10, 2⟩ ∧ Inventory.invariant ⟨100, 13, 10, 2⟩ :=
  ⟨by decide,
   (inventory_ops_preserve_invariant ⟨100, 10, 10, 2⟩ ⟨100, 13, 10, 2⟩ 3
      (by decide)).1 (by rfl)⟩

/-- C4: at `{capacity 100, amount 2, reserved 0}` the call `remove 50` passes
the source's guard (which compares `50` against `free() = 98` instead of the
stored amount `2`), signals no `InsufficientStock`, and then the subtraction
`amount -= 50` underflows `u32` (an arithmetic panic), contradicting the
claim that a guard-passing `remove` decreases `amount` without underflow. -/
theorem remove_guard_underflow_bug :
    ((50:Nat) ≤ 100 - 2) ∧
    Inventory.remove ⟨100, 2, 10, 0⟩ 50 = .error .arith :=
  ⟨by decide, by rfl⟩

/-- C5: the source's `unreserve` guard compares against `unreserved()` rather
than `reserved`.  At `{amount 10, reserved 10}`, `unreserve 1` signals the
guard violation although `1 ≤ reserved = 10` (the claim says it must succeed);
at `{amount 10, reserved 0}`, `unreserve 5` passes the guard although
`5 > reserved = 0` and the subtraction `reserved -= 5` underflows `u32`
instead of signalling `UnderReservation`. -/
theorem unreserve_guard_bug :
    ((1:Nat) ≤ 10) ∧
    Inventory.unreserve ⟨100, 10, 10, 10⟩ 1 = .error .unreserveGuard ∧
    ((5:Nat) > 0) ∧
    Inventory.unreserve ⟨100, 10, 10, 0⟩ 5 = .error .arith :=
  ⟨by decide, by rfl, by decide, by rfl⟩

/-- `ProductionRequirement` struct: a (commodity name, amount) pair. -/
structure ProductionRequirement where
  commodity_name : String
  amount : Nat
  deriving DecidableEq, Repr

/-- `ProductionStrategy` struct: ordered inputs, ordered outputs, duration. -/
structure ProductionStrategy where
  inputs : List ProductionRequirement
  outputs : List ProductionRequirement
  duration : Nat
  deriving DecidableEq, Repr

/-- `Producer` struct: a strategy reference by name and a progress counter. -/
structure Producer where
  production_strategy_name : String
  progress : Nat
  deriving DecidableEq, Repr

/-- `Producer::new`: progress starts at 0. -/
def Producer.new (name : String) : Producer :=
  { production_strategy_name := name, progress := 0 }

/-- The `HashMap<CommodityName, Inventory>` of an agent, as a map by key. -/
abbrev Inventories : Type := String → Option Inventory

/-- `HashMap::insert` on the inventories map (overwrites an existing key). -/
def updateInv (invs : Inventories) (name : String) (inv : Inventory) : Inventories :=
  fun c => if c = name then some inv else invs c

/-- The `HashMap<ProductionStrategyName, ProductionStrategy>` catalog. -/
abbrev Strategies : Type := String → Option ProductionStrategy

/-- The `inputs_are_satisfied` check of `Agent::run_production_step`:
`inputs.iter().all(|r| inventories.get(&r.commodity_name).unwrap().unreserved() >= r.amount)`.
`all` short-circuits at the first unsatisfied requirement; the lookups and
the `unreserved` computation themselves may panic. -/
def inputsSatisfied (invs : Inventories) : List ProductionRequirement → M Bool
  | [] => .ok true
  | r :: rs =>
    match invs r.commodity_name with
    | none => .error .unwrapNone
    | some inv =>
      match inv.unreserved with
      | .error e => .error e
      | .ok u => if u ≥ r.amount then inputsSatisfied invs rs else .ok false

/-- The `has_room_for_outputs` check of `Agent::run_production_step`:
`outputs.iter().all(|r| inventories.get(&r.commodity_name).unwrap().free() >= r.amount)`. -/
def outputsHaveRoom (invs : Inventories) : List ProductionRequirement → M Bool
  | [] => .ok true
  | r :: rs =>
    match invs r.commodity_name with
    | none => .error .unwrapNone
    | some inv =>
      match inv.free with
      | .error e => .error e
      | .ok f => if f ≥ r.amount then outputsHaveRoom invs rs else .ok false

/-- The input-reservation loop of the `progress == 0` branch:
for each input requirement in order, `inventory.reserve(r.amount)`. -/
def reserveInputs (invs : Inventories) : List ProductionRequirement → M Inventories
  | [] => .ok invs
  | r :: rs =>
    match invs r.commodity_name with
    | none => .error .unwrapNone
    | some inv =>
      match inv.reserve r.amount with
      | .error e => .error e
      | .ok inv' => reserveInputs (updateInv invs r.commodity_name inv') rs

/-- The input-consumption loop of the completion branch: for each input
requirement in order, `inventory.remove(r.amount); inventory.unreserve(r.amount)`. -/
def consumeInputs (invs : Inventories) : List ProductionRequirement → M Inventories
  | [] => .ok invs
  | r :: rs =>
    match invs r.commodity_name with
    | none => .error .unwrapNone
    | some inv =>
      match inv.remove r.amount with
      | .error e => .error e
      | .ok inv₁ =>
        match inv₁.unreserve r.amount with
        | .error e => .error e
        | .ok inv₂ => consumeInputs (updateInv invs r.commodity_name inv₂) rs

/-- The output loop of the completion branch: for each output requirement in
order, `inventory.add(r.amount)`. -/
def produceOutputs (invs : Inventories) : List ProductionRequirement → M Inventories
  | [] => .ok invs
  | r :: rs =>
    match invs r.commodity_name with
    | none => .error .unwrapNone
    | some inv =>
      match inv.add r.amount with
      | .error e => .error e
      | .ok inv' => produceOutputs (updateInv invs r.commodity_name inv') rs

/-- The per-producer body of `Agent::run_production_step` (the closure of the
`for_each` over producers), acting on one producer and the agent's
inventories, given the already-resolved strategy. -/
def stepProducer (s : ProductionStrategy) (invs : Inventories) (p : Producer) :
    M (Inventories × Producer) :=
  if p.progress = 0 then
    match inputsSatisfied invs s.inputs with
    | .error e => .error e
    | .ok true =>
      match reserveInputs invs s.inputs with
      | .error e => .error e
      | .ok invs₁ => .ok (invs₁, { p with progress := p.progress + 1 })
    | .ok false => .ok (invs, p)
  else if s.duration ≤ p.progress then
    match outputsHaveRoom invs s.outputs with
    | .error e => .error e
    | .ok true =>
      match consumeInputs invs s.inputs with
      | .error e => .error e
      | .ok invs₁ =>
        match produceOutputs invs₁ s.outputs with
        | .error e => .error e
        | .ok invs₂ => .ok (invs₂, { p with progress := 0 })
    | .ok false => .ok (invs, p)
  else .ok (invs, { p with progress := p.progress + 1 })

/-- The `for_each` over the agent's producers: each producer is advanced once,
in stored order, against the inventory state already mutated by the earlier
producers of the same tick; the strategy is resolved by name (`unwrap`). -/
def stepProducers (strats : Strategies) (invs : Inventories) :
    List Producer → M (Inventories × List Producer)
  | [] => .ok (invs, [])
  | p :: ps =>
    match strats p.production_strategy_name with
    | none => .error .unwrapNone
    | some s =>
      match stepProducer s invs p with
      | .error e => .error e
      | .ok (invs₁, p') =>
        match stepProducers strats invs₁ ps with
        | .error e => .error e
        | .ok (invs₂, ps') => .ok (invs₂, p' :: ps')

/-- Inventory map of the C2 failing input: `water` is full to capacity with one
unit reserved for the in-flight job, `food` has plenty of room. -/
def invsC2 : Inventories := fun c =>
  if c = "water" then some ⟨100, 100, 10, 1⟩
  else if c = "food" then some ⟨100, 10, 10, 0⟩ else none

/-- The one-tick farmer strategy: input water×1, output food×1, duration 1. -/
def sFarm1 : ProductionStrategy := ⟨[⟨"water", 1⟩], [⟨"food", 1⟩], 1⟩

/-- C2: a ReadyToComplete producer whose output commodity has room
(`food.free = 90 ≥ 1`) can still fail to complete: because `remove`'s guard
compares against `free()` instead of the stored amount, consuming the
reserved input panics when the input inventory is full
(`water.free = 0 < 1` although `water.amount = 100 ≥ 1`), so the step
performs no successful mutation where the claim requires completion. -/
theorem completion_blocked_by_remove_guard_bug :
    outputsHaveRoom invsC2 sFarm1.outputs = .ok true ∧
    stepProducer sFarm1 invsC2 ⟨"farmer", 1⟩ = .error .removeGuard :=
  ⟨by rfl, by rfl⟩

/-- C3 counterexample state: ten unreserved units of `water`. -/
def invsC3 : Inventories := fun c =>
  if c = "water" then some ⟨100, 10, 10, 0⟩ else none

/-- A strategy whose two input requirements name the same commodity. -/
def sDup : ProductionStrategy := ⟨[⟨"water", 6⟩, ⟨"water", 6⟩], [], 1⟩

/-- C3: the claim as stated is false: with two input requirements of 6 `water`
each and 10 unreserved units, every input requirement's commodity has
`unreserved = 10 ≥ 6`, yet the step is not all-or-nothing: the first
reservation succeeds and the second panics in `reserve`'s guard, leaving a
partial reservation and raising an error instead of setting progress to 1
or silently doing nothing. -/
theorem start_partial_reservation_cex :
    inputsSatisfied invsC3 sDup.inputs = .ok true ∧
    stepProducer sDup invsC3 ⟨"doubler", 0⟩ = .error .reserveGuard :=
  ⟨by rfl, by rfl⟩

/-- C10: a producer in the Idle state whose strategy has an empty input list
always starts: the satisfaction check over zero requirements is vacuously
true, nothing is reserved, and progress becomes 1, for every inventory
state whatsoever. -/
theorem empty_inputs_always_starts (s : ProductionStrategy) (invs : Inventories)
    (p : Producer) (hin : s.inputs = []) (h0 : p.progress = 0) :
    stepProducer s invs p = .ok (invs, { p with progress := 1 }) := by
  unfold stepProducer
  rw [h0, hin]
  simp [inputsSatisfied, reserveInputs]

/-- The `water-source` strategy of the repository's `main`: no inputs. -/
def sWaterSource : ProductionStrategy := ⟨[], [⟨"water", 1⟩], 1⟩

/-- Witness for `empty_inputs_always_starts`: the `water-source` producer
starts even over an empty inventory map. -/
theorem empty_inputs_always_starts_witness :
    sWaterSource.inputs = [] ∧ (Producer.new "water-source").progress = 0 ∧
    stepProducer sWaterSource (fun _ => none) (Producer.new "water-source") =
      .ok (fun _ => none, ⟨"water-source", 1⟩) :=
  ⟨rfl, rfl,
   empty_inputs_always_starts sWaterSource (fun _ => none) (Producer.new "water-source")
     rfl rfl⟩

/-- The names of the commodities a requirement list references. -/
def reqNames (reqs : List ProductionRequirement) : List String :=
  reqs.map (·.commodity_name)

theorem reqNames_nil : reqNames [] = [] := rfl

theorem reqNames_cons (r : ProductionRequirement) (rs : List ProductionRequirement) :
    reqNames (r :: rs) = r.commodity_name :: reqNames rs := rfl

theorem reqNames_append (a b : List ProductionRequirement) :
    reqNames (a ++ b) = reqNames a ++ reqNames b := List.map_append _ a b

/-- The input-satisfaction check only reads the inventories of the
requirements' own commodities. -/
theorem inputsSatisfied_congr (reqs : List ProductionRequirement)
    (invs₁ invs₂ : Inventories)
    (h : ∀ r ∈ reqs, invs₁ r.commodity_name = invs₂ r.commodity_name) :
    inputsSatisfied invs₁ reqs = inputsSatisfied invs₂ reqs := by
  induction reqs with
  | nil => rfl
  | cons r rs ih =>
    have hr := h r (List.mem_cons_self r rs)
    rcases h2 : invs₂ r.commodity_name with _ | inv
    · simp only [inputsSatisfied, hr, h2]
    · simp only [inputsSatisfied, hr, h2]
      rcases hu : inv.unreserved with e | u
      · simp only [hu]
      · simp only [hu]
        by_cases hge : u ≥ r.amount
        · simp only [if_pos hge]
          exact ih (fun r' hr' => h r' (List.mem_cons_of_mem r hr'))
        · simp only [if_neg hge]

/-- When every input requirement is satisfied and the requirements name
pairwise distinct commodities, the reservation loop succeeds and reserves
exactly each required amount on the corresponding inventory, touching no
other commodity. -/
theorem reserveInputs_spec (reqs : List ProductionRequirement) (invs : Inventories)
    (hnd : (reqNames reqs).Nodup)
    (hsat : inputsSatisfied invs reqs = .ok true) :
    ∃ invs', reserveInputs invs reqs = .ok invs' ∧
      (∀ c, c ∉ reqNames reqs → invs' c = invs c) ∧
      (∀ r ∈ reqs, ∃ inv, invs r.commodity_name = some inv ∧
        invs' r.commodity_name =
          some { inv with reserved := inv.reserved + r.amount }) := by
  induction reqs generalizing invs with
  | nil => exact ⟨invs, rfl, fun c _ => rfl, by simp⟩
  | cons r rs ih =>
    rw [reqNames_cons, List.nodup_cons] at hnd
    obtain ⟨hnotin, hnd'⟩ := hnd
    rcases hlook : invs r.commodity_name with _ | inv
    · simp only [inputsSatisfied, hlook] at hsat
      exact Except.noConfusion hsat
    · simp only [inputsSatisfied, hlook] at hsat
      rcases hu : inv.unreserved with e | u
      · simp only [hu] at hsat
        exact Except.noConfusion hsat
      · simp only [hu] at hsat
        by_cases hge : u ≥ r.amount
        · rw [if_pos hge] at hsat
          rw [Inventory.unreserved, checkedSub_ok] at hu
          obtain ⟨hle, rfl⟩ := hu
          have hres : inv.reserve r.amount =
              .ok { inv with reserved := inv.reserved + r.amount } :=
            Inventory.reserve_ok.mpr ⟨hle, by omega, rfl⟩
          have hagree : ∀ r' ∈ rs,
              (updateInv invs r.commodity_name
                { inv with reserved := inv.reserved + r.amount }) r'.commodity_name =
              invs r'.commodity_name := by
            intro r' hr'
            have hne : r'.commodity_name ≠ r.commodity_name := by
              intro hcontra
              exact hnotin (hcontra ▸ List.mem_map_of_mem (·.commodity_name) hr')
            simp only [updateInv, if_neg hne]
          have hsat' : inputsSatisfied
              (updateInv invs r.commodity_name
                { inv with reserved := inv.reserved + r.amount }) rs = .ok true :=
            (inputsSatisfied_congr rs _ invs hagree).trans hsat
          obtain ⟨invs', hrun, huntouched, hmem⟩ := ih _ hnd' hsat'
          refine ⟨invs', ?_, ?_, ?_⟩
          · simp only [reserveInputs, hlook, hres]
            exact hrun
          · intro c hc
            rw [reqNames_cons, List.mem_cons] at hc
            push_neg at hc
            rw [huntouched c hc.2, updateInv, if_neg hc.1]
          · intro r' hr'
            rcases List.mem_cons.mp hr' with rfl | hr'
            · refine ⟨inv, hlook, ?_⟩
              rw [huntouched _ hnotin, updateInv, if_pos rfl]
            · obtain ⟨inv₀, h1, h2⟩ := hmem r' hr'
              exact ⟨inv₀, (hagree r' hr').symm.trans h1, h2⟩
        · rw [if_neg hge] at hsat
          exact Bool.noConfusion (Except.ok.inj hsat)

/-- C3 (amended): for a producer in the Idle state (`progress = 0`) whose
strategy's input requirements name pairwise distinct commodities: if every
input requirement's commodity has `unreserved ≥` the required amount, the
step reserves each required amount on the corresponding inventory in listed
order (all-or-nothing, touching no other commodity) and sets `progress = 1`;
if any input requirement is unsatisfied, the step performs no mutation,
progress stays 0 and no error is raised.  (Distinctness cannot be dropped:
see `start_partial_reservation_cex`.) -/
theorem idle_start_spec (s : ProductionStrategy) (invs : Inventories) (p : Producer)
    (h0 : p.progress = 0) (hnd : (reqNames s.inputs).Nodup) :
    (inputsSatisfied invs s.inputs = .ok false → stepProducer s invs p = .ok (invs, p)) ∧
    (inputsSatisfied invs s.inputs = .ok true →
      ∃ invs', stepProducer s invs p = .ok (invs', { p with progress := 1 }) ∧
        (∀ c, c ∉ reqNames s.inputs → invs' c = invs c) ∧
        (∀ r ∈ s.inputs, ∃ inv, invs r.commodity_name = some inv ∧
          invs' r.commodity_name =
            some { inv with reserved := inv.reserved + r.amount })) := by
  constructor
  · intro hsat
    unfold stepProducer
    rw [h0]
    simp [hsat]
  · intro hsat
    obtain ⟨invs', hrun, huntouched, hmem⟩ := reserveInputs_spec s.inputs invs hnd hsat
    refine ⟨invs', ?_, huntouched, hmem⟩
    unfold stepProducer
    rw [h0]
    simp [hsat, hrun]

/-- Inventory map with all ten units of `water` already reserved, used to
witness the unsatisfied branch of `idle_start_spec`. -/
def invsAllReserved : Inventories := fun c =>
  if c = "water" then some ⟨100, 10, 10, 10⟩ else none

/-- Witness for `idle_start_spec`: a fresh farmer producer over an inventory
whose `water` is fully reserved does not start, mutates nothing and raises
no error. -/
theorem idle_start_spec_witness :
    (Producer.new "farmer").progress = 0 ∧ (reqNames sFarm1.inputs).Nodup ∧
    stepProducer sFarm1 invsAllReserved (Producer.new "farmer") =
      .ok (invsAllReserved, Producer.new "farmer") :=
  ⟨rfl, by decide,
   (idle_start_spec sFarm1 invsAllReserved (Producer.new "farmer") rfl (by decide)).1
     (by rfl)⟩

/-- A successful run of the input-consumption loop over pairwise distinct
commodities removes each required amount from the commodity's stored amount
and releases the same amount from its reservation, touching nothing else. -/
theorem consumeInputs_spec (reqs : List ProductionRequirement) (invs invs' : Inventories)
    (hnd : (reqNames reqs).Nodup)
    (hrun : consumeInputs invs reqs = .ok invs') :
    (∀ c, c ∉ reqNames reqs → invs' c = invs c) ∧
    (∀ r ∈ reqs, ∃ inv, invs r.commodity_name = some inv ∧
      r.amount ≤ inv.amount ∧ r.amount ≤ inv.reserved ∧
      invs' r.commodity_name =
        some ⟨inv.capacity, inv.amount - r.amount, inv.ideal_amount,
              inv.reserved - r.amount⟩) := by
  induction reqs generalizing invs with
  | nil =>
    obtain rfl := Except.ok.inj hrun
    exact ⟨fun c _ => rfl, by simp⟩
  | cons r rs ih =>
    rw [reqNames_cons, List.nodup_cons] at hnd
    obtain ⟨hnotin, hnd'⟩ := hnd
    rcases hlook : invs r.commodity_name with _ | inv
    · simp only [consumeInputs, hlook] at hrun
      exact Except.noConfusion hrun
    · simp only [consumeInputs, hlook] at hrun
      rcases hrem : inv.remove r.amount with e | inv₁
      · simp only [hrem] at hrun
        exact Except.noConfusion hrun
      · simp only [hrem] at hrun
        rcases hunr : inv₁.unreserve r.amount with e | inv₂
        · simp only [hunr] at hrun
          exact Except.noConfusion hrun
        · simp only [hunr] at hrun
          rw [Inventory.remove_ok] at hrem
          obtain ⟨hc1, hc2, hc3, rfl⟩ := hrem
          rw [Inventory.unreserve_ok] at hunr
          obtain ⟨hd1, hd2, hd3, rfl⟩ := hunr
          obtain ⟨huntouched, hmem⟩ := ih _ hnd' hrun
          constructor
          · intro c hc
            rw [reqNames_cons, List.mem_cons] at hc
            push_neg at hc
            rw [huntouched c hc.2]
            simp only [updateInv]
            rw [if_neg hc.1]
          · intro r' hr'
            rcases List.mem_cons.mp hr' with rfl | hr'
            · refine ⟨inv, hlook, hc3, hd3, ?_⟩
              rw [huntouched _ hnotin]
              simp [updateInv]
            · obtain ⟨inv₀, h1, hA, hB, h2⟩ := hmem r' hr'
              have hne : r'.commodity_name ≠ r.commodity_name := by
                intro hcontra
                exact hnotin (hcontra ▸ List.mem_map_of_mem (·.commodity_name) hr')
              simp only [updateInv] at h1
              rw [if_neg hne] at h1
              exact ⟨inv₀, h1, hA, hB, h2⟩

/-- A successful run of the output loop over pairwise distinct commodities
adds each declared amount to the commodity's stored amount, leaving its
reservation and everything else unchanged. -/
theorem produceOutputs_spec (reqs : List ProductionRequirement) (invs invs' : Inventories)
    (hnd : (reqNames reqs).Nodup)
    (hrun : produceOutputs invs reqs = .ok invs') :
    (∀ c, c ∉ reqNames reqs → invs' c = invs c) ∧
    (∀ r ∈ reqs, ∃ inv, invs r.commodity_name = some inv ∧
      invs' r.commodity_name = some { inv with amount := inv.amount + r.amount }) := by
  induction reqs generalizing invs with
  | nil =>
    obtain rfl := Except.ok.inj hrun
    exact ⟨fun c _ => rfl, by simp⟩
  | cons r rs ih =>
    rw [reqNames_cons, List.nodup_cons] at hnd
    obtain ⟨hnotin, hnd'⟩ := hnd
    rcases hlook : invs r.commodity_name with _ | inv
    · simp only [produceOutputs, hlook] at hrun
      exact Except.noConfusion hrun
    · simp only [produceOutputs, hlook] at hrun
      rcases hadd : inv.add r.amount with e | inv₁
      · simp only [hadd] at hrun
        exact Except.noConfusion hrun
      · simp only [hadd] at hrun
        rw [Inventory.add_ok] at hadd
        obtain ⟨hc1, hc2, rfl⟩ := hadd
        obtain ⟨huntouched, hmem⟩ := ih _ hnd' hrun
        constructor
        · intro c hc
          rw [reqNames_cons, List.mem_cons] at hc
          push_neg at hc
          rw [huntouched c hc.2]
          simp only [updateInv]
          rw [if_neg hc.1]
        · intro r' hr'
          rcases List.mem_cons.mp hr' with rfl | hr'
          · refine ⟨inv, hlook, ?_⟩
            rw [huntouched _ hnotin]
            simp [updateInv]
          · obtain ⟨inv₀, h1, h2⟩ := hmem r' hr'
            have hne : r'.commodity_name ≠ r.commodity_name := by
              intro hcontra
              exact hnotin (hcontra ▸ List.mem_map_of_mem (·.commodity_name) hr')
            simp only [updateInv] at h1
            rw [if_neg hne] at h1
            exact ⟨inv₀, h1, h2⟩

/-- C6 (amended): across a successful job completion (a step taken with
`progress ≥ duration` that resets progress to 0) whose strategy's input and
output requirements name pairwise distinct commodities, each input
commodity's amount decreases by exactly the requirement amount the job
reserved at start, its reservation is released by the same amount, each
output commodity's amount increases by exactly the strategy's declared
output amount with its reservation untouched, and no other commodity
changes.  (Distinctness cannot be dropped: a commodity appearing in both
lists changes by the combined net of its entries, see
`completion_overlap_cex`.) -/
theorem production_completion_conservation
    (s : ProductionStrategy) (invs invs' : Inventories) (p p' : Producer)
    (h0 : ¬ p.progress = 0) (hd : s.duration ≤ p.progress)
    (hnd : (reqNames (s.inputs ++ s.outputs)).Nodup)
    (hstep : stepProducer s invs p = .ok (invs', p'))
    (hreset : p'.progress = 0) :
    (∀ r ∈ s.inputs, ∃ inv inv₂, invs r.commodity_name = some inv ∧
        invs' r.commodity_name = some inv₂ ∧
        inv₂.amount + r.amount = inv.amount ∧
        inv₂.reserved + r.amount = inv.reserved) ∧
    (∀ r ∈ s.outputs, ∃ inv inv₂, invs r.commodity_name = some inv ∧
        invs' r.commodity_name = some inv₂ ∧
        inv₂.amount = inv.amount + r.amount ∧
        inv₂.reserved = inv.reserved) ∧
    (∀ c, c ∉ reqNames (s.inputs ++ s.outputs) → invs' c = invs c) := by
  rw [reqNames_append, List.nodup_append] at hnd
  obtain ⟨hndIn, hndOut, hdisj⟩ := hnd
  unfold stepProducer at hstep
  rw [if_neg h0, if_pos hd] at hstep
  rcases hroom : outputsHaveRoom invs s.outputs with e | b
  · simp only [hroom] at hstep
    exact Except.noConfusion hstep
  · simp only [hroom] at hstep
    cases b
    · have heq := Except.ok.inj hstep
      have hp : p = p' := congrArg Prod.snd heq
      exact absurd (hp ▸ hreset) h0
    · rcases hcons : consumeInputs invs s.inputs with e | invs₁
      · simp only [hcons] at hstep
        exact Except.noConfusion hstep
      · simp only [hcons] at hstep
        rcases hprod : produceOutputs invs₁ s.outputs with e | invs₂
        · simp only [hprod] at hstep
          exact Except.noConfusion hstep
        · simp only [hprod] at hstep
          have heq := Except.ok.inj hstep
          have hinvs : invs' = invs₂ := (congrArg Prod.fst heq).symm
          rw [hinvs]
          obtain ⟨huc, hmc⟩ := consumeInputs_spec s.inputs invs invs₁ hndIn hcons
          obtain ⟨hup, hmp⟩ := produceOutputs_spec s.outputs invs₁ invs₂ hndOut hprod
          refine ⟨?_, ?_, ?_⟩
          · intro r hr
            obtain ⟨inv, h1, hA, hB, h2⟩ := hmc r hr
            have hnotout : r.commodity_name ∉ reqNames s.outputs :=
              fun hmem => hdisj (List.mem_map_of_mem (·.commodity_name) hr) hmem
            refine ⟨inv, _, h1, (hup _ hnotout).trans h2, ?_, ?_⟩
            · show inv.amount - r.amount + r.amount = inv.amount
              omega
            · show inv.reserved - r.amount + r.amount = inv.reserved
              omega
          · intro r hr
            obtain ⟨inv₀, h1, h2⟩ := hmp r hr
            have hnotin : r.commodity_name ∉ reqNames s.inputs :=
              fun hmem => hdisj hmem (List.mem_map_of_mem (·.commodity_name) hr)
            rw [huc _ hnotin] at h1
            exact ⟨inv₀, { inv₀ with amount := inv₀.amount + r.amount }, h1, h2, rfl, rfl⟩
          · intro c hc
            rw [reqNames_append, List.mem_append] at hc
            push_neg at hc
            rw [hup c hc.2, huc c hc.1]

/-- Inventory map of the C6 witness: ten units of water with one reserved for
the in-flight farmer job, ten units of food with room to spare. -/
def invsC6 : Inventories := fun c =>
  if c = "water" then some ⟨100, 10, 10, 1⟩
  else if c = "food" then some ⟨100, 10, 10, 0⟩ else none

/-- The inventory map after the farmer job of the C6 witness completes:
water 10 → 9 with the reservation released, food 10 → 11. -/
def invsC6step : Inventories :=
  updateInv (updateInv invsC6 "water" ⟨100, 9, 10, 0⟩) "food" ⟨100, 11, 10, 0⟩

/-- Witness for `production_completion_conservation`: one completing farmer
step, consuming the reserved water and delivering the food; an unrelated
commodity is untouched. -/
theorem production_completion_conservation_witness :
    stepProducer sFarm1 invsC6 ⟨"farmer", 1⟩ = .ok (invsC6step, ⟨"farmer", 0⟩) ∧
    invsC6step "money" = invsC6 "money" :=
  ⟨rfl,
   (production_completion_conservation sFarm1 invsC6 invsC6step ⟨"farmer", 1⟩
      ⟨"farmer", 0⟩ (by decide) (by decide) (by decide) rfl rfl).2.2 "money" (by decide)⟩

/-- `DEFAULT_INVENTORY_CAPACITY` constant of `src/main.rs`. -/
def DEFAULT_INVENTORY_CAPACITY : Nat := 100

/-- `DEFAULT_INVENTORY_AMOUNT` constant of `src/main.rs`. -/
def DEFAULT_INVENTORY_AMOUNT : Nat := 10

/-- `Inventory::new`: default starting amount, given capacity, nothing
reserved, ideal amount 10. -/
def Inventory.new (capacity : Nat) : Inventory :=
  { amount := DEFAULT_INVENTORY_AMOUNT, capacity := capacity, reserved := 0,
    ideal_amount := 10 }

/-- `PriceBelief` struct (unused by the production engine). -/
structure PriceBelief where
  upper : Int
  lower : Int
  deriving DecidableEq, Repr

/-- `Agent` struct: id, inventories, producers, balance, price beliefs. -/
structure Agent where
  id : Nat
  inventories : Inventories
  producers : List Producer
  balance : Int
  price_beliefs : String → Option PriceBelief

/-- `MarketAgentBuilder::add_production_strategy`: resolves the strategy by
name (`unwrap`), pushes one new Producer, then for every requirement in
`inputs.iter().chain(outputs.iter())` inserts a fresh default Inventory into
the agent's map (`HashMap::insert`, which overwrites an existing entry). -/
def MarketAgentBuilder.add_production_strategy (strats : Strategies) (name : String)
    (a : Agent) : M Agent :=
  match strats name with
  | none => .error .unwrapNone
  | some s =>
    .ok { a with
      producers := a.producers ++ [Producer.new name],
      inventories := (s.inputs ++ s.outputs).foldl
        (fun invs r =>
          updateInv invs r.commodity_name (Inventory.new DEFAULT_INVENTORY_CAPACITY))
        a.inventories }

/-- Folding default-inventory inserts over a requirement list sets exactly the
referenced commodities to the default inventory and leaves the rest alone. -/
theorem foldl_insert_default (reqs : List ProductionRequirement) (invs : Inventories)
    (c : String) :
    (reqs.foldl
      (fun m r =>
        updateInv m r.commodity_name (Inventory.new DEFAULT_INVENTORY_CAPACITY))
      invs) c =
    if c ∈ reqNames reqs then some (Inventory.new DEFAULT_INVENTORY_CAPACITY)
    else invs c := by
  induction reqs generalizing invs with
  | nil => simp [reqNames]
  | cons r rs ih =>
    rw [List.foldl_cons, ih]
    by_cases hm : c ∈ reqNames rs
    · rw [if_pos hm, if_pos (by rw [reqNames_cons, List.mem_cons]; exact Or.inr hm)]
    · rw [if_neg hm]
      by_cases he : c = r.commodity_name
      · rw [if_pos (by rw [reqNames_cons, List.mem_cons]; exact Or.inl he)]
        simp only [updateInv]
        rw [if_pos he]
      · rw [if_neg (by rw [reqNames_cons, List.mem_cons]; push_neg; exact ⟨he, hm⟩)]
        simp only [updateInv]
        rw [if_neg he]

/-- An agent that already holds a non-default `water` inventory. -/
def aC7 : Agent :=
  ⟨7, (fun c => if c = "water" then some ⟨50, 7, 10, 3⟩ else none), [], 100,
   fun _ => none⟩

/-- A strategy catalog holding only the one-tick farmer strategy. -/
def stratsFarm : Strategies := fun n => if n = "farmer" then some sFarm1 else none

/-- C7: the claim as stated is false: the builder's inventory insertion is
unconditional (`HashMap::insert`), so an Inventory the agent already holds
for a referenced commodity is NOT left unchanged — here the existing `water`
inventory `{capacity 50, amount 7, reserved 3}` is overwritten with the
default `{capacity 100, amount 10, reserved 0}`. -/
theorem builder_overwrites_inventory_cex :
    aC7.inventories "water" = some ⟨50, 7, 10, 3⟩ ∧
    (MarketAgentBuilder.add_production_strategy stratsFarm "farmer" aC7).map
        (fun ag => ag.inventories "water") =
      .ok (some (Inventory.new DEFAULT_INVENTORY_CAPACITY)) ∧
    some (Inventory.new DEFAULT_INVENTORY_CAPACITY) ≠
      some (⟨50, 7, 10, 3⟩ : Inventory) :=
  ⟨rfl, rfl, by decide⟩

/-- C7 (amended): attaching a strategy to an agent creates exactly one new
Producer and inserts a fresh default Inventory (default starting amount and
default capacity) for every commodity named in the strategy's inputs or
outputs, unconditionally — overwriting any Inventory the agent already
holds for such a commodity — while commodities the strategy does not
reference, and the agent's id, balance and price beliefs, are unchanged. -/
theorem add_production_strategy_spec (strats : Strategies) (s : ProductionStrategy)
    (name : String) (a a' : Agent)
    (hs : strats name = some s)
    (hrun : MarketAgentBuilder.add_production_strategy strats name a = .ok a') :
    a'.producers = a.producers ++ [Producer.new name] ∧
    a'.id = a.id ∧ a'.balance = a.balance ∧ a'.price_beliefs = a.price_beliefs ∧
    (∀ c, c ∈ reqNames (s.inputs ++ s.outputs) →
      a'.inventories c = some (Inventory.new DEFAULT_INVENTORY_CAPACITY)) ∧
    (∀ c, c ∉ reqNames (s.inputs ++ s.outputs) →
      a'.inventories c = a.inventories c) := by
  unfold MarketAgentBuilder.add_production_strategy at hrun
  simp only [hs] at hrun
  obtain rfl := Except.ok.inj hrun
  refine ⟨rfl, rfl, rfl, rfl, ?_, ?_⟩
  · intro c hc
    exact (foldl_insert_default (s.inputs ++ s.outputs) a.inventories c).trans (if_pos hc)
  · intro c hc
    exact (foldl_insert_default (s.inputs ++ s.outputs) a.inventories c).trans (if_neg hc)

/-- The agent `aC7` after attaching the farmer strategy: one new producer and
fresh default `water` and `food` inventories. -/
def aC7after : Agent :=
  ⟨7,
   updateInv (updateInv aC7.inventories "water" (Inventory.new DEFAULT_INVENTORY_CAPACITY))
     "food" (Inventory.new DEFAULT_INVENTORY_CAPACITY),
   [Producer.new "farmer"], 100, fun _ => none⟩

/-- Witness for `add_production_strategy_spec` on the concrete agent `aC7`. -/
theorem add_production_strategy_spec_witness :
    stratsFarm "farmer" = some sFarm1 ∧
    MarketAgentBuilder.add_production_strategy stratsFarm "farmer" aC7 = .ok aC7after ∧
    aC7after.producers = aC7.producers ++ [Producer.new "farmer"] ∧
    aC7after.balance = aC7.balance :=
  ⟨rfl, rfl,
   (add_production_strategy_spec stratsFarm sFarm1 "farmer" aC7 aC7after rfl rfl).1,
   (add_production_strategy_spec stratsFarm sFarm1 "farmer" aC7 aC7after rfl rfl).2.2.1⟩

/-- Projection of a successful pair-returning step: second components agree. -/
theorem ok_pair_snd {α β : Type} {x₁ x₂ : α} {y₁ y₂ : β}
    (h : (Except.ok (x₁, y₁) : M (α × β)) = .ok (x₂, y₂)) : y₂ = y₁ :=
  (congrArg Prod.snd (Except.ok.inj h)).symm

/-- `Agent::run_production_step`: advance every owned producer once, threading
the agent's own inventories through, and store the results back; the other
fields of the agent are untouched. -/
def Agent.run_production_step (strats : Strategies) (a : Agent) : M Agent :=
  match stepProducers strats a.inventories a.producers with
  | .error e => .error e
  | .ok (invs, ps) => .ok { a with inventories := invs, producers := ps }

/-- One producer step never changes which strategy the producer references. -/
theorem stepProducer_name (s : ProductionStrategy) (invs invs' : Inventories)
    (p p' : Producer) (h : stepProducer s invs p = .ok (invs', p')) :
    p'.production_strategy_name = p.production_strategy_name := by
  unfold stepProducer at h
  by_cases h0 : p.progress = 0
  · rw [if_pos h0] at h
    rcases hsat : inputsSatisfied invs s.inputs with e | b
    · simp only [hsat] at h
      exact Except.noConfusion h
    · simp only [hsat] at h
      cases b
      · rw [ok_pair_snd h]
      · rcases hres : reserveInputs invs s.inputs with e | invs₁
        · simp only [hres] at h
          exact Except.noConfusion h
        · simp only [hres] at h
          rw [ok_pair_snd h]
  · rw [if_neg h0] at h
    by_cases hd : s.duration ≤ p.progress
    · rw [if_pos hd] at h
      rcases hroom : outputsHaveRoom invs s.outputs with e | b
      · simp only [hroom] at h
        exact Except.noConfusion h
      · simp only [hroom] at h
        cases b
        · rw [ok_pair_snd h]
        · rcases hcons : consumeInputs invs s.inputs with e | invs₁
          · simp only [hcons] at h
            exact Except.noConfusion h
          · simp only [hcons] at h
            rcases hprod : produceOutputs invs₁ s.outputs with e | invs₂
            · simp only [hprod] at h
              exact Except.noConfusion h
            · simp only [hprod] at h
              rw [ok_pair_snd h]
    · rw [if_neg hd] at h
      rw [ok_pair_snd h]

/-- The producer loop advances each producer exactly once, in order,
preserving each producer's strategy reference. -/
theorem stepProducers_names (strats : Strategies) (invs invs' : Inventories)
    (ps ps' : List Producer)
    (h : stepProducers strats invs ps = .ok (invs', ps')) :
    List.Forall₂ (fun p p' : Producer =>
      p'.production_strategy_name = p.production_strategy_name) ps ps' := by
  induction ps generalizing invs invs' ps' with
  | nil =>
    have hps : ps' = [] := (congrArg Prod.snd (Except.ok.inj h)).symm
    rw [hps]
    exact List.Forall₂.nil
  | cons p ps ih =>
    simp only [stepProducers] at h
    rcases hstrat : strats p.production_strategy_name with _ | s
    · simp only [hstrat] at h
      exact Except.noConfusion h
    · simp only [hstrat] at h
      rcases hsp : stepProducer s invs p with e | pair
      · simp only [hsp] at h
        exact Except.noConfusion h
      · obtain ⟨invs₁, p₁⟩ := pair
        simp only [hsp] at h
        rcases hrest : stepProducers strats invs₁ ps with e | pair₂
        · simp only [hrest] at h
          exact Except.noConfusion h
        · obtain ⟨invs₂, ps₂⟩ := pair₂
          simp only [hrest] at h
          have hps : ps' = p₁ :: ps₂ := ok_pair_snd h
          rw [hps]
          exact List.Forall₂.cons (stepProducer_name s invs invs₁ p p₁ hsp)
            (ih invs₁ invs₂ ps₂ hrest)

/-- C8: a successful `Agent::run_production_step` advances every owned
producer exactly once (one output producer per input producer, in order,
with its strategy reference preserved), against this agent's own
inventories only; the agent's id, balance and price beliefs are unchanged,
and the side effects are confined to the agent's inventories and its
producers' progress counters. -/
theorem agent_step_frame (strats : Strategies) (a a' : Agent)
    (h : Agent.run_production_step strats a = .ok a') :
    a'.id = a.id ∧ a'.balance = a.balance ∧ a'.price_beliefs = a.price_beliefs ∧
    stepProducers strats a.inventories a.producers = .ok (a'.inventories, a'.producers) ∧
    List.Forall₂ (fun p p' : Producer =>
      p'.production_strategy_name = p.production_strategy_name)
      a.producers a'.producers := by
  unfold Agent.run_production_step at h
  rcases hsp : stepProducers strats a.inventories a.producers with e | pair
  · simp only [hsp] at h
    exact Except.noConfusion h
  · obtain ⟨invs, ps⟩ := pair
    simp only [hsp] at h
    obtain rfl := Except.ok.inj h
    exact ⟨rfl, rfl, rfl, rfl,
           stepProducers_names strats a.inventories invs a.producers ps hsp⟩

/-- The C8 witness agent: one farmer producer over the default water map. -/
def aW8 : Agent := ⟨3, invsC3, [Producer.new "farmer"], 100, fun _ => none⟩

/-- The C8 witness agent after one step: one unit of water reserved and the
producer at progress 1; id, balance and beliefs untouched. -/
def aW8after : Agent :=
  ⟨3, updateInv invsC3 "water" ⟨100, 10, 10, 1⟩, [⟨"farmer", 1⟩], 100, fun _ => none⟩

/-- Witness for `agent_step_frame` on the concrete agent `aW8`. -/
theorem agent_step_frame_witness :
    Agent.run_production_step stratsFarm aW8 = .ok aW8after ∧
    aW8after.id = aW8.id ∧ aW8after.balance = aW8.balance :=
  ⟨rfl, (agent_step_frame stratsFarm aW8 aW8after rfl).1,
   (agent_step_frame stratsFarm aW8 aW8after rfl).2.1⟩

/-- The effect of `HashMap::iter_mut().for_each(...)` with an element-wise
fallible update: each entry is replaced by the result of the update, in
iteration order; a panic aborts the traversal. -/
def mapExcept {α β : Type} (f : α → M β) : List α → M (List β)
  | [] => .ok []
  | x :: xs =>
    match f x with
    | .error e => .error e
    | .ok y =>
      match mapExcept f xs with
      | .error e => .error e
      | .ok ys => .ok (y :: ys)

/-- The per-entry body of `Market::run_production_step`: advance one agent,
keeping its id. -/
def stepEntry (strats : Strategies) (entry : Nat × Agent) : M (Nat × Agent) :=
  match Agent.run_production_step strats entry.2 with
  | .error err => .error err
  | .ok a' => .ok (entry.1, a')

/-- `Market` struct: the agents map (as an association list in iteration
order) and the shared strategy catalog; the trade-side fields of the source
struct are not used by the production engine and are omitted. -/
structure Market where
  agents : List (Nat × Agent)
  production_strategies : Strategies

/-- `Market::run_production_step`: advance every agent exactly once, each
against the shared read-only strategy catalog. -/
def Market.run_production_step (m : Market) : M Market :=
  match mapExcept (stepEntry m.production_strategies) m.agents with
  | .error e => .error e
  | .ok ags => .ok { m with agents := ags }

/-- A successful traversal relates input and output lists element-wise. -/
theorem mapExcept_forall₂ {α β : Type} (f : α → M β) (l : List α) (r : List β)
    (h : mapExcept f l = .ok r) :
    List.Forall₂ (fun x y => f x = .ok y) l r := by
  induction l generalizing r with
  | nil =>
    obtain rfl := Except.ok.inj h
    exact List.Forall₂.nil
  | cons x xs ih =>
    simp only [mapExcept] at h
    rcases hx : f x with e | y
    · simp only [hx] at h
      exact Except.noConfusion h
    · simp only [hx] at h
      rcases hxs : mapExcept f xs with e | ys
      · simp only [hxs] at h
        exact Except.noConfusion h
      · simp only [hxs] at h
        obtain rfl := (Except.ok.inj h).symm
        exact List.Forall₂.cons hx (ih ys hxs)

/-- A successful traversal means every element's update succeeded. -/
theorem mapExcept_ok_mem {α β : Type} (f : α → M β) (l : List α) (r : List β)
    (h : mapExcept f l = .ok r) : ∀ x ∈ l, ∃ y, f x = .ok y := by
  induction l generalizing r with
  | nil => intro x hx; exact absurd hx (List.not_mem_nil x)
  | cons x xs ih =>
    simp only [mapExcept] at h
    rcases hx : f x with e | y
    · simp only [hx] at h
      exact Except.noConfusion h
    · simp only [hx] at h
      rcases hxs : mapExcept f xs with e | ys
      · simp only [hxs] at h
        exact Except.noConfusion h
      · intro z hz
        rcases List.mem_cons.mp hz with rfl | hz
        · exact ⟨y, hx⟩
        · exact ih ys hxs z hz

/-- If every element's update succeeds, the traversal succeeds. -/
theorem mapExcept_exists {α β : Type} (f : α → M β) (l : List α)
    (h : ∀ x ∈ l, ∃ y, f x = .ok y) : ∃ r, mapExcept f l = .ok r := by
  induction l with
  | nil => exact ⟨[], rfl⟩
  | cons x xs ih =>
    obtain ⟨y, hy⟩ := h x (List.mem_cons_self x xs)
    obtain ⟨ys, hys⟩ := ih (fun z hz => h z (List.mem_cons_of_mem x hz))
    exact ⟨y :: ys, by simp only [mapExcept, hy, hys]⟩

/-- Inversion of a successful traversal step. -/
theorem mapExcept_cons_ok {α β : Type} {f : α → M β} {x : α} {xs : List α}
    {r : List β} (h : mapExcept f (x :: xs) = .ok r) :
    ∃ y ys, f x = .ok y ∧ mapExcept f xs = .ok ys ∧ r = y :: ys := by
  simp only [mapExcept] at h
  rcases hx : f x with e | y
  · simp only [hx] at h
    exact Except.noConfusion h
  · simp only [hx] at h
    rcases hxs : mapExcept f xs with e | ys
    · simp only [hxs] at h
      exact Except.noConfusion h
    · simp only [hxs] at h
      exact ⟨y, ys, rfl, rfl, (Except.ok.inj h).symm⟩

/-- Processing the entries in a different order permutes the results: the
per-element update reads nothing but the element itself. -/
theorem mapExcept_perm {α β : Type} (f : α → M β) {l₁ l₂ : List α}
    (hperm : l₁.Perm l₂) :
    ∀ (r₁ r₂ : List β), mapExcept f l₁ = .ok r₁ → mapExcept f l₂ = .ok r₂ →
      r₁.Perm r₂ := by
  induction hperm with
  | nil =>
    intro r₁ r₂ h₁ h₂
    obtain rfl := Except.ok.inj h₁
    obtain rfl := Except.ok.inj h₂
    exact List.Perm.nil
  | cons x hper ih =>
    intro r₁ r₂ h₁ h₂
    obtain ⟨y₁, ys₁, hy₁, ht₁, rfl⟩ := mapExcept_cons_ok h₁
    obtain ⟨y₂, ys₂, hy₂, ht₂, rfl⟩ := mapExcept_cons_ok h₂
    obtain rfl := Except.ok.inj (hy₁.symm.trans hy₂)
    exact List.Perm.cons y₁ (ih ys₁ ys₂ ht₁ ht₂)
  | swap x y l =>
    intro r₁ r₂ h₁ h₂
    obtain ⟨a₁, rest₁, ha₁, ht₁, rfl⟩ := mapExcept_cons_ok h₁
    obtain ⟨b₁, bs₁, hb₁, hu₁, rfl⟩ := mapExcept_cons_ok ht₁
    obtain ⟨a₂, rest₂, ha₂, ht₂, rfl⟩ := mapExcept_cons_ok h₂
    obtain ⟨b₂, bs₂, hb₂, hu₂, rfl⟩ := mapExcept_cons_ok ht₂
    obtain rfl := Except.ok.inj (ha₁.symm.trans hb₂)
    obtain rfl := Except.ok.inj (hb₁.symm.trans ha₂)
    obtain rfl := Except.ok.inj (hu₁.symm.trans hu₂)
    exact List.Perm.swap b₁ a₁ bs₁
  | trans hab hbc ih₁ ih₂ =>
    intro r₁ r₂ h₁ h₂
    obtain ⟨rm, hrm⟩ := mapExcept_exists f _
      (fun x hx => mapExcept_ok_mem f _ r₁ h₁ x (hab.mem_iff.mpr hx))
    exact (ih₁ r₁ rm h₁ hrm).trans (ih₂ rm r₂ hrm h₂)

/-- C9: `Market::run_production_step` advances every agent exactly once
(element-wise over the agents map) against the shared strategy catalog, and
the final state is independent of the order in which the agents map is
iterated: two successful runs over the same agents in different orders
produce the same collection of updated agents (a permutation, i.e. the same
final map). -/
theorem market_step_order_independent (m₁ m₂ m₁' m₂' : Market)
    (hstrat : m₁.production_strategies = m₂.production_strategies)
    (hperm : m₁.agents.Perm m₂.agents)
    (h₁ : m₁.run_production_step = .ok m₁')
    (h₂ : m₂.run_production_step = .ok m₂') :
    m₁'.agents.Perm m₂'.agents ∧
    List.Forall₂ (fun entry entry' =>
      stepEntry m₁.production_strategies entry = .ok entry')
      m₁.agents m₁'.agents := by
  unfold Market.run_production_step at h₁ h₂
  rcases hm1 : mapExcept (stepEntry m₁.production_strategies) m₁.agents with e | ags₁
  · simp only [hm1] at h₁
    exact Except.noConfusion h₁
  · simp only [hm1] at h₁
    rcases hm2 : mapExcept (stepEntry m₂.production_strategies) m₂.agents with e | ags₂
    · simp only [hm2] at h₂
      exact Except.noConfusion h₂
    · simp only [hm2] at h₂
      obtain rfl := Except.ok.inj h₁
      obtain rfl := Except.ok.inj h₂
      rw [← hstrat] at hm2
      exact ⟨mapExcept_perm (stepEntry m₁.production_strategies) hperm ags₁ ags₂ hm1 hm2,
             mapExcept_forall₂ _ _ _ hm1⟩

/-- A C9 witness agent with no producers. -/
def agA : Agent := ⟨1, fun _ => none, [], 100, fun _ => none⟩

/-- A second C9 witness agent with no producers. -/
def agB : Agent := ⟨2, fun _ => none, [], 100, fun _ => none⟩

/-- A two-agent market in one iteration order. -/
def mW1 : Market := ⟨[(1, agA), (2, agB)], fun _ => none⟩

/-- The same two-agent market in the opposite iteration order. -/
def mW2 : Market := ⟨[(2, agB), (1, agA)], fun _ => none⟩

/-- Witness for `market_step_order_independent` on the two concrete markets. -/
theorem market_step_order_independent_witness :
    Market.run_production_step mW1 = .ok mW1 ∧
    Market.run_production_step mW2 = .ok mW2 ∧
    mW1.agents.Perm mW2.agents := by
  have hp : mW1.agents.Perm mW2.agents := List.Perm.swap (2, agB) (1, agA) []
  exact ⟨rfl, rfl, (market_step_order_independent mW1 mW2 mW1 mW2 rfl hp rfl rfl).1⟩

/-- A strategy whose single commodity appears in both the inputs (1 unit)
and the outputs (5 units). -/
def sBrewer : ProductionStrategy := ⟨[⟨"water", 1⟩], [⟨"water", 5⟩], 1⟩

/-- Inventory map for the C6 counterexample: ten units of water, one
reserved for the in-flight job. -/
def invsOverlap : Inventories := fun c =>
  if c = "water" then some ⟨100, 10, 10, 1⟩ else none

/-- The C6 counterexample map after the completion step: water consumed 1 and
produced 5, netting 10 → 14. -/
def invsOverlapStep : Inventories :=
  updateInv (updateInv invsOverlap "water" ⟨100, 9, 10, 0⟩) "water" ⟨100, 14, 10, 0⟩

/-- C6: the claim as stated is false: for a strategy with input water×1 and
output water×5, a job completion succeeds (progress 1 ≥ duration 1 resets to
0, the output-room check passes), yet the input commodity's amount does not
decrease by the amount reserved at start — it rises from 10 to 14, the
combined net of the two requirement entries. -/
theorem completion_overlap_cex :
    stepProducer sBrewer invsOverlap ⟨"brewer", 1⟩ =
      .ok (invsOverlapStep, ⟨"brewer", 0⟩) ∧
    invsOverlap "water" = some ⟨100, 10, 10, 1⟩ ∧
    invsOverlapStep "water" = some ⟨100, 14, 10, 0⟩ ∧
    (⟨100, 14, 10, 0⟩ : Inventory).amount + 1 ≠ (⟨100, 10, 10, 1⟩ : Inventory).amount :=
  ⟨rfl, rfl, rfl, by decide⟩
